import Mathlib

-- Verification of the kinematic-tree core (`src/rctree_links.rs`):
-- link trees, kinematic chains, joint-angle accessors, single-pass world
-- transform computation, and the DOF-limited chain-extraction algorithm.
--
-- Shallow embedding conventions:
--   * `Rc<RefCell<Node<Link<T>>>>` graphs become an arena `List LinkNode`
--     addressed by `Nat` indices; a node's `parent` is an optional index and
--     `children` a list of indices.  Shared interior mutation becomes explicit
--     arena passing.
--   * The scalar type `T : Real` is opaque to the control flow under study;
--     joint angles are embedded as `Int`.
--   * `Isometry3<T>` is opaque except for composition (`*`) and `identity()`;
--     transforms are embedded as the free monoid `List Int` (`tmul` = append,
--     `tfid` = `[]`), which keeps composition associative and non-commutative
--     enough to be honest about ordering.
--   * Panics (`assert!`, `unwrap` on a dead weak reference) are embedded as
--     `Option`/`none` results.
--   * Upward walks over parent pointers recurse on a fuel argument initialised
--     to the current index; well-formed trees have `parent < child` at every
--     edge, so the fuel never runs out on them (lemmas below make the fuel
--     irrelevant), while keeping every definition kernel-evaluable.

namespace RcTreeLinks

-- Transforms: free monoid over `Int`.
abbrev Tf := List Int

def tfid : Tf := []

def tmul (x y : Tf) : Tf := x ++ y

-- `JointError` from the external joint primitive (`links.rs`).
inductive JointError where
  | SizeMisMatch
  | OutOfRange
deriving DecidableEq

/-- Modelled from the spec: `links.rs` is not under `src/`.  A `Link` per §3 —
`name`, opaque local-transform inputs (embedded as a base `transform` the tree
may overwrite via `set_root_transform`), an optional `joint_angle` (present iff
the joint is not fixed), optional mechanical `limits` for per-joint validation,
a joint name, and the shared `world_transform_cache`. -/
structure Link where
  name : String
  joint_name : String
  transform : Tf
  joint_angle : Option Int
  limits : Option (Int × Int)
  world_transform_cache : Option Tf
deriving DecidableEq

/-- Modelled from the spec: capability `has_joint_angle()` — a link has a joint
angle iff its joint type is not fixed. -/
def Link.has_joint_angle (l : Link) : Bool :=
  l.joint_angle.isSome

/-- Modelled from the spec: capability `get_joint_angle()`. -/
def Link.get_joint_angle (l : Link) : Option Int :=
  l.joint_angle

/-- Modelled from the spec: capability `get_joint_name()`. -/
def Link.get_joint_name (l : Link) : String :=
  l.joint_name

/-- Modelled from the spec: `calc_transform()` computes the local rigid
transform from the static offset and the current joint angle. -/
def Link.calc_transform (l : Link) : Tf :=
  tmul l.transform (match l.joint_angle with | some a => [a] | none => tfid)

/-- Modelled from the spec: `set_joint_angle(scalar)` fails with
`JointError::OutOfRange` (or similar) if invalid — on a fixed joint, or when the
angle violates the mechanical limits; otherwise it stores the angle. -/
def Link.set_joint_angle (l : Link) (angle : Int) : Except JointError Link :=
  match l.joint_angle with
  | none => .error .OutOfRange
  | some _ =>
    match l.limits with
    | some lim =>
      if lim.1 ≤ angle ∧ angle ≤ lim.2 then
        .ok { l with joint_angle := some angle }
      else
        .error .OutOfRange
    | none => .ok { l with joint_angle := some angle }

/-- Modelled from the spec: `rctree.rs` is not under `src/`.  A tree node
(`Node<Link<T>>`): one link of data, an optional weak parent reference and
owned children, both embedded as arena indices. -/
structure LinkNode where
  data : Link
  parent : Option Nat
  children : List Nat
deriving DecidableEq

abbrev Arena := List LinkNode

def dummyNode : LinkNode :=
  { data := { name := "", joint_name := "", transform := tfid,
              joint_angle := none, limits := none,
              world_transform_cache := none },
    parent := none, children := [] }

def getNode (a : Arena) (i : Nat) : LinkNode :=
  a.getD i dummyNode

/-- Whether the link at index `i` has a (non-fixed) joint. -/
def hasJA (a : Arena) (i : Nat) : Bool :=
  (getNode a i).data.has_joint_angle

/-- Replace the link stored at index `i`. -/
def setData (a : Arena) (i : Nat) (l : Link) : Arena :=
  a.set i { getNode a i with data := l }

/-- Overwrite the world-transform cache of the link at index `i`. -/
def setCache (a : Arena) (i : Nat) (tr : Tf) : Arena :=
  setData a i { (getNode a i).data with world_transform_cache := some tr }

/-- Modelled from the spec: `map_ancestors(node, f)` follows parent references
from `node` to the root inclusive, in child-to-root order.  `fuel` recursion
with fuel initialised to the index: on a well-formed tree (`parent < child`)
the fuel never runs out. -/
def ancestorGo (a : Arena) (fuel i : Nat) : List Nat :=
  match (getNode a i).parent with
  | none => [i]
  | some j =>
    if j < i then
      match fuel with
      | 0 => [i]
      | f+1 => i :: ancestorGo a f j
    else [i]

def ancestorIds (a : Arena) (i : Nat) : List Nat :=
  ancestorGo a i i

/-- Modelled from the spec: `map_descendants(node, f)` pre-order traversal,
parent visited strictly before children; fuel bounds the depth. -/
def descendantGo (a : Arena) : Nat → Nat → List Nat
  | 0, i => [i]
  | f+1, i => i :: ((getNode a i).children.map (descendantGo a f)).flatten

def descendantIds (a : Arena) (i : Nat) : List Nat :=
  descendantGo a a.length i

-- `RefKinematicChain` (src/rctree_links.rs lines 13-63).

structure RefKinematicChain where
  name : String
  joint_with_links : List Nat
  transform : Tf
deriving DecidableEq

namespace RefKinematicChain

/-- Constructor `RefKinematicChain::new(name, end)` (lines 23-32): ancestors of `end`
child-to-root, reversed to root-first order; base transform identity. -/
def new (name : String) (a : Arena) (endNode : Nat) : RefKinematicChain :=
  { name := name,
    joint_with_links := (ancestorIds a endNode).reverse,
    transform := tfid }

/-- Method `calc_end_transform` (lines 37-42): left fold of the chain's base transform
with each node's local transform, root-to-end. -/
def calc_end_transform (c : RefKinematicChain) (a : Arena) : Tf :=
  c.joint_with_links.foldl
    (fun trans i => tmul trans (getNode a i).data.calc_transform) c.transform

/-- Method `get_joint_angles` (lines 57-62): filter-map the chain's nodes to their
joint angles, chain order. -/
def get_joint_angles (c : RefKinematicChain) (a : Arena) : List Int :=
  c.joint_with_links.filterMap (fun i => (getNode a i).data.get_joint_angle)

end RefKinematicChain

/-- The sequential assignment loop shared by both `set_joint_angles`
implementations (lines 52-54 and 155-157): assign each (node, angle) pair in
order via the per-link primitive, aborting at the first failure; the arena
reached so far is kept (shared mutable state, no rollback). -/
def setAnglesLoop (a : Arena) : List (Nat × Int) → Except JointError Unit × Arena
  | [] => (.ok (), a)
  | (i, ang) :: rest =>
    match (getNode a i).data.set_joint_angle ang with
    | .error e => (.error e, a)
    | .ok l => setAnglesLoop (setData a i l) rest

/-- Method `RefKinematicChain::set_joint_angles` (lines 43-56): collect the chain's
jointed nodes, fail with `SizeMisMatch` on a length mismatch before any
assignment, else assign per-index in chain order. -/
def RefKinematicChain.set_joint_angles (c : RefKinematicChain) (a : Arena)
    (angles : List Int) : Except JointError Unit × Arena :=
  let joints_with_angle := c.joint_with_links.filter (fun i => hasJA a i)
  if joints_with_angle.length ≠ angles.length then
    (.error .SizeMisMatch, a)
  else
    setAnglesLoop a (joints_with_angle.zip angles)

-- `LinkTree` (lines 65-175).

structure LinkTree where
  name : String
  root_link : Nat
  expanded_robot_link_vec : List Nat
deriving DecidableEq

namespace LinkTree

/-- Constructor `LinkTree::new` (lines 73-79): capture the root and flatten the tree by a
pre-order descendant traversal. -/
def new (name : String) (a : Arena) (root_link : Nat) : LinkTree :=
  { name := name,
    root_link := root_link,
    expanded_robot_link_vec := descendantIds a root_link }

/-- Method `set_root_transform` (lines 80-82). -/
def set_root_transform (t : LinkTree) (a : Arena) (transform : Tf) : Arena :=
  setData a t.root_link { (getNode a t.root_link).data with transform := transform }

/-- The parent world transform looked up by `calc_link_transforms` (lines
86-96): the parent's cached world transform, or the identity if the node has no
parent or the parent's cache is empty. -/
def parentWorld (a : Arena) (i : Nat) : Tf :=
  match (getNode a i).parent with
  | some p =>
    match (getNode a p).data.world_transform_cache with
    | some tr => tr
    | none => tfid
  | none => tfid

/-- One pass of `calc_link_transforms` (lines 83-102), written as recursion over
the flattened order: read the parent's cached world transform, compose
`parent * local`, store it in this node's cache, emit it. -/
def calcLinkTransformsGo (a : Arena) : List Nat → List Tf × Arena
  | [] => ([], a)
  | i :: rest =>
    let trans := tmul (parentWorld a i) (getNode a i).data.calc_transform
    let res := calcLinkTransformsGo (setCache a i trans) rest
    (trans :: res.1, res.2)

/-- Method `calc_link_transforms` (lines 83-102) over the stored flattened order. -/
def calc_link_transforms (t : LinkTree) (a : Arena) : List Tf × Arena :=
  calcLinkTransformsGo a t.expanded_robot_link_vec

/-- Method `iter_for_joints` (lines 128-131): the flattened order restricted to nodes
with a joint angle. -/
def iter_for_joints (t : LinkTree) (a : Arena) : List Nat :=
  t.expanded_robot_link_vec.filter (fun i => hasJA a i)

/-- Method `dof` (lines 172-174). -/
def dof (t : LinkTree) (a : Arena) : Nat :=
  (t.iter_for_joints a).length

/-- Method `get_joint_angles` (lines 144-146) via `filter_map_link`. -/
def get_joint_angles (t : LinkTree) (a : Arena) : List Int :=
  t.expanded_robot_link_vec.filterMap (fun i => (getNode a i).data.get_joint_angle)

/-- Method `set_joint_angles` (lines 151-159): length check against `dof()` before any
assignment, then assign along `iter_for_joints` zipped with the input. -/
def set_joint_angles (t : LinkTree) (a : Arena) (angles_vec : List Int) :
    Except JointError Unit × Arena :=
  if angles_vec.length ≠ t.dof a then
    (.error .SizeMisMatch, a)
  else
    setAnglesLoop a ((t.iter_for_joints a).zip angles_vec)

/-- Method `get_joint_names` (lines 162-164). -/
def get_joint_names (t : LinkTree) (a : Arena) : List String :=
  (t.iter_for_joints a).map (fun i => (getNode a i).data.get_joint_name)

/-- Method `get_all_joint_names` (lines 167-169). -/
def get_all_joint_names (t : LinkTree) (a : Arena) : List String :=
  t.expanded_robot_link_vec.map (fun i => (getNode a i).data.get_joint_name)

end LinkTree

-- Chain extraction (lines 177-234).

/-- The DOF-limit truncation walk (lines 203-219) with panic embedded as
`none`: while the counter is positive, assert the current node has a parent
(panic otherwise), step to it, and decrement only when the new node is jointed.
Fuel initialised to the start index; on well-formed trees (`parent < child`)
it never runs out, and a violating edge is also a structural panic (`none`). -/
def truncGo (a : Arena) : Nat → Nat → Nat → Option Nat
  | _, root, 0 => some root
  | fuel, root, n+1 =>
    match (getNode a root).parent with
    | none => none
    | some p =>
      if p < root then
        match fuel with
        | 0 => none
        | f+1 =>
          if hasJA a p then truncGo a f p n else truncGo a f p (n+1)
      else none

def truncateRoot (a : Arena) (root n : Nat) : Option Nat :=
  truncGo a root root n

/-- The jointed-ancestor count of a node (line 198-201): `map_ancestors`, keep
the jointed ones, count — the leaf's `dof` in the extraction algorithm. -/
def jointedCount (a : Arena) (i : Nat) : Nat :=
  ((ancestorIds a i).filter (fun j => hasJA a j)).length

/-- Steps 1-2 of the per-leaf extraction (lines 198-220): the computed chain
root, `none` on the truncation-walk panic. -/
def computedRoot (a : Arena) (dof_limit leaf : Nat) : Option Nat :=
  if jointedCount a leaf > dof_limit
  then truncateRoot a leaf (jointedCount a leaf - dof_limit)
  else some leaf

/-- Steps 2-5 of `create_kinematic_chains_with_dof_limit` (lines 197-233) over
the leaf list, carrying the dedup name set: compute the truncated root
(propagating the panic), skip if a chain with that root-link name was already
constructed, otherwise construct the chain, record its name (whether or not it
is emitted), and emit it only if it has at least 6 joints. -/
def ckcLoop (a : Arena) (dof_limit : Nat) :
    List String → List Nat → Option (List RefKinematicChain)
  | _, [] => some []
  | name_hash, leaf :: rest =>
    match computedRoot a dof_limit leaf with
    | none => none
    | some root =>
      let nm := (getNode a root).data.name
      if nm ∈ name_hash then
        ckcLoop a dof_limit name_hash rest
      else
        let kc := RefKinematicChain.new nm a root
        match ckcLoop a dof_limit (nm :: name_hash) rest with
        | none => none
        | some out =>
          some (if 6 ≤ (kc.get_joint_angles a).length then kc :: out else out)

/-- The leaves of the tree in flattened order (lines 191-196): nodes with no
children. -/
def leavesOf (t : LinkTree) (a : Arena) : List Nat :=
  t.expanded_robot_link_vec.filter (fun i => (getNode a i).children.isEmpty)

/-- Function `create_kinematic_chains_with_dof_limit` (lines 184-234); `none` embeds the
truncation-walk panic. -/
def create_kinematic_chains_with_dof_limit (t : LinkTree) (a : Arena)
    (dof_limit : Nat) : Option (List RefKinematicChain) :=
  ckcLoop a dof_limit [] (leavesOf t a)

/-- Function `create_kinematic_chains` (lines 178-182): `usize::max_value()` limit. -/
def create_kinematic_chains (t : LinkTree) (a : Arena) :
    Option (List RefKinematicChain) :=
  create_kinematic_chains_with_dof_limit t a (2 ^ 64 - 1)

-- Concrete input data used by witnesses and counterexamples.

/-- A jointed link named `l<k>` with no limits and angle 0. -/
def mkLink (k : Nat) : Link :=
  { name := "l" ++ toString k, joint_name := "j" ++ toString k,
    transform := tfid, joint_angle := some 0, limits := none,
    world_transform_cache := none }

/-- Node `k` of a straight chain of `total` jointed links. -/
def mkChainNode (total k : Nat) : LinkNode :=
  { data := mkLink k,
    parent := if k = 0 then none else some (k - 1),
    children := if k + 1 = total then [] else [k + 1] }

/-- A straight chain of `total` jointed links, indices `0 .. total-1`. -/
def chainArena (total : Nat) : Arena :=
  (List.range total).map (mkChainNode total)

def arena8 : Arena := chainArena 8
def tree8 : LinkTree := LinkTree.new "tree8" arena8 0

def arena10 : Arena := chainArena 10
def tree10 : LinkTree := LinkTree.new "tree10" arena10 0

/-- A single jointed link that is both root and leaf. -/
def arena1 : Arena := [{ data := mkLink 0, parent := none, children := [] }]
def tree1 : LinkTree := LinkTree.new "tree1" arena1 0

/-- Two branches from a root, both leaves named `"X"`: branch A is the single
leaf node 1; branch B is the path 2-3-4-5-6-7 ending in leaf 7.  All links
jointed.  In flattened order leaf 1 comes first; with an unlimited DOF limit
both computed roots are the leaves themselves and share the name `"X"`. -/
def arenaDup : Arena :=
  [ { data := mkLink 0, parent := none, children := [1, 2] },
    { data := { mkLink 1 with name := "X" }, parent := some 0, children := [] },
    { data := mkLink 2, parent := some 0, children := [3] },
    { data := mkLink 3, parent := some 2, children := [4] },
    { data := mkLink 4, parent := some 3, children := [5] },
    { data := mkLink 5, parent := some 4, children := [6] },
    { data := mkLink 6, parent := some 5, children := [7] },
    { data := { mkLink 7 with name := "X" }, parent := some 6, children := [] } ]
def treeDup : LinkTree := LinkTree.new "treeDup" arenaDup 0

/-- Node `k` of a straight chain of 9 links in which node 5 has a fixed joint
(no joint angle) and every other node is jointed. -/
def mkFxNode (k : Nat) : LinkNode :=
  { data := if k = 5 then { mkLink 5 with joint_angle := none } else mkLink k,
    parent := if k = 0 then none else some (k - 1),
    children := if k = 8 then [] else [k + 1] }

/-- A straight chain of 9 links with a fixed joint in the middle (node 5). -/
def arenaFx : Arena := (List.range 9).map mkFxNode

/-- Two jointed links; the second has mechanical limits `[-1, 1]`, so setting
it to 99 fails while the first assignment has already been applied. -/
def arenaLim : Arena :=
  [ { data := mkLink 0, parent := none, children := [1] },
    { data := { mkLink 1 with limits := some (-1, 1) },
      parent := some 0, children := [] } ]
def treeLim : LinkTree := LinkTree.new "treeLim" arenaLim 0

-- Specification-side predicates and helper state functions used by the
-- theorems below.

/-- The composition of local transforms along the root-to-node path given by
the ancestor walk (root-first order, left fold from the identity). -/
def pathTf (a : Arena) (i : Nat) : Tf :=
  ((ancestorIds a i).reverse.map (fun j => (getNode a j).data.calc_transform)).foldl
    tmul tfid

-- The ancestor-before-descendant order invariant of the flattened list
-- (spec §3 and §8, "traversal order"), phrased so it is decidable on concrete
-- inputs: scanning the list left to right, each node's parent (if any) must
-- already have been visited.

def orderOK (a : Arena) : List Nat → List Nat → Bool
  | _, [] => true
  | done, i :: rest =>
    (match (getNode a i).parent with
     | some p => done.contains p
     | none => true) && orderOK a (i :: done) rest

/-- Parent indices precede child indices (well-formed arena edge), decidably. -/
def parentLt (a : Arena) (i : Nat) : Bool :=
  match (getNode a i).parent with
  | some p => decide (p < i)
  | none => true

/-- Two arenas that can differ only in world-transform caches: same length,
same parent references, same local transforms. -/
def cacheOnlyDiff (a b : Arena) : Prop :=
  a.length = b.length ∧
  ∀ i, (getNode a i).parent = (getNode b i).parent ∧
       (getNode a i).data.calc_transform = (getNode b i).data.calc_transform

def isOkE (e : Except JointError Link) : Bool :=
  match e with
  | .ok _ => true
  | .error _ => false

/-- Whether the per-link angle-set primitive succeeds at node `i`. -/
def okSet (a : Arena) (i : Nat) (ang : Int) : Bool :=
  isOkE ((getNode a i).data.set_joint_angle ang)

/-- The arena after storing angle `ang` at node `i`. -/
def applyAngle (a : Arena) (i : Nat) (ang : Int) : Arena :=
  setData a i { (getNode a i).data with joint_angle := some ang }

/-- The arena after storing a whole pair list in order. -/
def applyAll (a : Arena) : List (Nat × Int) → Arena
  | [] => a
  | p :: rest => applyAll (applyAngle a p.1 p.2) rest

/-- The name of the computed chain root for a leaf, when the truncation walk
does not panic. -/
def crName (a : Arena) (dl x : Nat) : Option String :=
  (computedRoot a dl x).map (fun r => (getNode a r).data.name)

/-- The jointed-ancestor count of the node's strict ancestors (the part of
`jointedCount` above the node itself, following the same walk the truncation
loop follows). -/
def tailJC (a : Arena) (i : Nat) : Nat :=
  match (getNode a i).parent with
  | some p => if p < i then jointedCount a p else 0
  | none => 0

-- Fuel-elimination lemmas for the upward walks.

theorem ancestorGo_congr (a : Arena) :
    ∀ f g i : Nat, i ≤ f → i ≤ g → ancestorGo a f i = ancestorGo a g i := by
  intro f
  induction f using Nat.strong_induction_on with
  | _ f ih =>
    intro g i hf hg
    unfold ancestorGo
    cases hp : (getNode a i).parent with
    | none => rfl
    | some j =>
      simp only
      by_cases hj : j < i
      · simp only [if_pos hj]
        have hi1 : 1 ≤ i := Nat.lt_of_le_of_lt (Nat.zero_le j) hj
        cases f with
        | zero => exact absurd (Nat.le_trans hi1 hf) (by decide)
        | succ f' =>
          cases g with
          | zero => exact absurd (Nat.le_trans hi1 hg) (by decide)
          | succ g' =>
            have hjf : j ≤ f' := Nat.le_of_lt_succ (Nat.lt_of_lt_of_le hj hf)
            have hjg : j ≤ g' := Nat.le_of_lt_succ (Nat.lt_of_lt_of_le hj hg)
            have h1 := ih f' (Nat.lt_succ_self f') g' j hjf hjg
            simp only [h1]
      · simp only [if_neg hj]

/-- The defining recurrence of `ancestorIds`, fuel eliminated. -/
theorem ancestorIds_eq (a : Arena) (i : Nat) :
    ancestorIds a i =
      (match (getNode a i).parent with
       | none => [i]
       | some j => if j < i then i :: ancestorIds a j else [i]) := by
  cases hp : (getNode a i).parent with
  | none =>
    simp only
    unfold ancestorIds ancestorGo
    simp [hp]
  | some j =>
    simp only
    by_cases hj : j < i
    · simp only [if_pos hj]
      cases i with
      | zero => exact absurd hj (Nat.not_lt_zero j)
      | succ i' =>
        show ancestorGo a (i'+1) (i'+1) = (i'+1) :: ancestorIds a j
        unfold ancestorGo
        simp only [hp, if_pos hj]
        rw [ancestorGo_congr a i' j j (Nat.le_of_lt_succ hj) (Nat.le_refl j)]
        rfl
    · simp only [if_neg hj]
      unfold ancestorIds ancestorGo
      simp [hp, hj]

theorem truncGo_congr (a : Arena) :
    ∀ f g root n : Nat, root ≤ f → root ≤ g →
      truncGo a f root n = truncGo a g root n := by
  intro f
  induction f using Nat.strong_induction_on with
  | _ f ih =>
    intro g root n hf hg
    cases n with
    | zero => simp [truncGo]
    | succ n =>
      unfold truncGo
      cases hp : (getNode a root).parent with
      | none => rfl
      | some p =>
        simp only
        by_cases hpr : p < root
        · simp only [if_pos hpr]
          have hr1 : 1 ≤ root := Nat.lt_of_le_of_lt (Nat.zero_le p) hpr
          cases f with
          | zero => exact absurd (Nat.le_trans hr1 hf) (by decide)
          | succ f' =>
            cases g with
            | zero => exact absurd (Nat.le_trans hr1 hg) (by decide)
            | succ g' =>
              have hpf : p ≤ f' := Nat.le_of_lt_succ (Nat.lt_of_lt_of_le hpr hf)
              have hpg : p ≤ g' := Nat.le_of_lt_succ (Nat.lt_of_lt_of_le hpr hg)
              by_cases hja : hasJA a p
              · simp only [hja, if_pos]
                exact ih f' (Nat.lt_succ_self f') g' p n hpf hpg
              · simp only [hja]
                simp only [Bool.false_eq_true, if_neg, if_false]
                exact ih f' (Nat.lt_succ_self f') g' p (n+1) hpf hpg
        · simp only [if_neg hpr]

/-- The defining recurrence of `truncateRoot`, fuel eliminated. -/
theorem truncateRoot_eq (a : Arena) (root n : Nat) :
    truncateRoot a root n =
      (match n with
       | 0 => some root
       | n+1 =>
         match (getNode a root).parent with
         | none => none
         | some p =>
           if p < root then
             (if hasJA a p then truncateRoot a p n else truncateRoot a p (n+1))
           else none) := by
  cases n with
  | zero => simp [truncateRoot, truncGo]
  | succ n =>
    cases hp : (getNode a root).parent with
    | none =>
      simp only
      unfold truncateRoot truncGo
      simp [hp]
    | some p =>
      simp only
      by_cases hpr : p < root
      · simp only [if_pos hpr]
        cases root with
        | zero => exact absurd hpr (Nat.not_lt_zero p)
        | succ r' =>
          show truncGo a (r'+1) (r'+1) (n+1) = _
          unfold truncGo
          simp only [hp, if_pos hpr]
          have hpf : p ≤ r' := Nat.le_of_lt_succ hpr
          by_cases hja : hasJA a p
          · simp only [hja, if_pos]
            rw [truncGo_congr a r' p p n hpf (Nat.le_refl p)]
            rfl
          · simp only [hja, Bool.false_eq_true, if_neg, if_false]
            rw [truncGo_congr a r' p p (n+1) hpf (Nat.le_refl p)]
            rfl
      · simp only [if_neg hpr]
        unfold truncateRoot truncGo
        simp [hp, hpr]

-- Basic arena lemmas.

theorem getNode_set (a : Arena) (j : Nat) (v : LinkNode) (i : Nat) :
    getNode (a.set j v) i = if j = i ∧ j < a.length then v else getNode a i := by
  unfold getNode
  rw [List.getD_eq_getElem?_getD, List.getD_eq_getElem?_getD, List.getElem?_set]
  by_cases hji : j = i
  · subst hji
    by_cases hl : j < a.length
    · simp [hl]
    · simp [hl, List.getElem?_eq_none (Nat.le_of_not_lt hl)]
  · simp [hji]

theorem length_setData (a : Arena) (i : Nat) (l : Link) :
    (setData a i l).length = a.length := by
  unfold setData
  exact List.length_set a i _

theorem getNode_setData (a : Arena) (j : Nat) (l : Link) (i : Nat) :
    getNode (setData a j l) i =
      if j = i ∧ j < a.length then { getNode a j with data := l }
      else getNode a i := by
  unfold setData
  exact getNode_set a j _ i

theorem parent_setData (a : Arena) (j : Nat) (l : Link) (i : Nat) :
    (getNode (setData a j l) i).parent = (getNode a i).parent := by
  rw [getNode_setData]
  by_cases h : j = i ∧ j < a.length
  · obtain ⟨rfl, hl⟩ := h
    simp [hl]
  · simp [h]

theorem children_setData (a : Arena) (j : Nat) (l : Link) (i : Nat) :
    (getNode (setData a j l) i).children = (getNode a i).children := by
  rw [getNode_setData]
  by_cases h : j = i ∧ j < a.length
  · obtain ⟨rfl, hl⟩ := h
    simp [hl]
  · simp [h]

theorem length_setCache (a : Arena) (j : Nat) (tr : Tf) :
    (setCache a j tr).length = a.length := by
  unfold setCache
  exact length_setData a j _

theorem parent_setCache (a : Arena) (j : Nat) (tr : Tf) (i : Nat) :
    (getNode (setCache a j tr) i).parent = (getNode a i).parent := by
  unfold setCache
  exact parent_setData a j _ i

theorem getNode_setCache_ne (a : Arena) (j : Nat) (tr : Tf) (i : Nat)
    (h : j ≠ i) : getNode (setCache a j tr) i = getNode a i := by
  unfold setCache
  rw [getNode_setData, if_neg (fun hc => h hc.1)]

theorem cache_setCache_self (a : Arena) (j : Nat) (tr : Tf) (h : j < a.length) :
    (getNode (setCache a j tr) j).data.world_transform_cache = some tr := by
  unfold setCache
  rw [getNode_setData]
  simp [h]

-- World-transform computation: path products and claim C4/C5 machinery.

theorem pathTf_parent (a : Arena) (i p : Nat)
    (hp : (getNode a i).parent = some p) (hpi : p < i) :
    pathTf a i = tmul (pathTf a p) (getNode a i).data.calc_transform := by
  unfold pathTf
  rw [ancestorIds_eq a i, hp]
  simp only [if_pos hpi, List.reverse_cons, List.map_append, List.foldl_append]
  rfl

theorem pathTf_root (a : Arena) (i : Nat)
    (hp : (getNode a i).parent = none) :
    pathTf a i = tmul tfid (getNode a i).data.calc_transform := by
  unfold pathTf
  rw [ancestorIds_eq a i, hp]
  rfl

/-- Writing a world-transform cache changes no local transform. -/
theorem calcTransform_setCache (a : Arena) (j : Nat) (tr : Tf) (i : Nat) :
    (getNode (setCache a j tr) i).data.calc_transform
      = (getNode a i).data.calc_transform := by
  unfold setCache
  rw [getNode_setData]
  by_cases h : j = i ∧ j < a.length
  · obtain ⟨rfl, hl⟩ := h
    simp [hl, Link.calc_transform]
  · simp [h]

/-- Writing a world-transform cache changes no joint angle. -/
theorem jointAngle_setCache (a : Arena) (j : Nat) (tr : Tf) (i : Nat) :
    (getNode (setCache a j tr) i).data.joint_angle
      = (getNode a i).data.joint_angle := by
  unfold setCache
  rw [getNode_setData]
  by_cases h : j = i ∧ j < a.length
  · obtain ⟨rfl, hl⟩ := h
    simp [hl]
  · simp [h]

/-- A pass of `calc_link_transforms` only rewrites world-transform caches: every node's
local transform is unchanged by a pass. -/
theorem calcGo_calc_transform :
    ∀ (l : List Nat) (a : Arena) (i : Nat),
      (getNode ((LinkTree.calcLinkTransformsGo a l).2) i).data.calc_transform =
        (getNode a i).data.calc_transform := by
  intro l
  induction l with
  | nil => intro a i; rfl
  | cons j rest ih =>
    intro a i
    unfold LinkTree.calcLinkTransformsGo
    simp only
    rw [ih, calcTransform_setCache]

/-- A pass of `calc_link_transforms` preserves parent references. -/
theorem calcGo_parent :
    ∀ (l : List Nat) (a : Arena) (i : Nat),
      (getNode ((LinkTree.calcLinkTransformsGo a l).2) i).parent =
        (getNode a i).parent := by
  intro l
  induction l with
  | nil => intro a i; rfl
  | cons j rest ih =>
    intro a i
    unfold LinkTree.calcLinkTransformsGo
    simp only
    rw [ih, parent_setCache]

/-- A pass of `calc_link_transforms` preserves the arena's length. -/
theorem calcGo_length :
    ∀ (l : List Nat) (a : Arena),
      ((LinkTree.calcLinkTransformsGo a l).2).length = a.length := by
  intro l
  induction l with
  | nil => intro a; rfl
  | cons j rest ih =>
    intro a
    unfold LinkTree.calcLinkTransformsGo
    simp only
    rw [ih, length_setCache]

/-- Unfolding equation for one step of the transform pass. -/
theorem calcGo_cons (a : Arena) (i : Nat) (rest : List Nat) :
    LinkTree.calcLinkTransformsGo a (i :: rest) =
      (tmul (LinkTree.parentWorld a i) (getNode a i).data.calc_transform ::
        (LinkTree.calcLinkTransformsGo (setCache a i
          (tmul (LinkTree.parentWorld a i)
            (getNode a i).data.calc_transform)) rest).1,
       (LinkTree.calcLinkTransformsGo (setCache a i
          (tmul (LinkTree.parentWorld a i)
            (getNode a i).data.calc_transform)) rest).2) := by
  cases rest with
  | nil => rfl
  | cons j r => rfl

/-- Invariant of the single pass of `calc_link_transforms`: if the arena
differs from a reference arena `a0` only in caches, every already-visited node
(`done`) caches its root-path product, and the remaining worklist only ever
reads parents that were already visited, then the pass emits exactly the
root-path products in list order and leaves them in the caches. -/
theorem calcGo_spec (a0 : Arena) :
    ∀ (l : List Nat) (a : Arena) (done : List Nat),
      cacheOnlyDiff a a0 →
      (∀ i ∈ done, (getNode a i).data.world_transform_cache = some (pathTf a0 i)) →
      orderOK a0 done l = true →
      (∀ i ∈ l, i < a0.length) →
      (∀ i ∈ l, parentLt a0 i = true) →
      (LinkTree.calcLinkTransformsGo a l).1 = l.map (pathTf a0)
      ∧ cacheOnlyDiff (LinkTree.calcLinkTransformsGo a l).2 a0
      ∧ ∀ i, i ∈ done ∨ i ∈ l →
          (getNode ((LinkTree.calcLinkTransformsGo a l).2) i).data.world_transform_cache
            = some (pathTf a0 i) := by
  intro l
  induction l with
  | nil =>
    intro a done hco hdone _ _ _
    refine ⟨rfl, hco, ?_⟩
    intro i hi
    cases hi with
    | inl h => exact hdone i h
    | inr h => exact absurd h (List.not_mem_nil i)
  | cons i rest ih =>
    intro a done hco hdone hord hb hwf
    obtain ⟨hlen, hnode⟩ := hco
    have hbi : i < a0.length := hb i (List.mem_cons_self i rest)
    have hbanew : i < a.length := hlen ▸ hbi
    have hparent_eq : (getNode a i).parent = (getNode a0 i).parent := (hnode i).1
    have hcalc_eq : (getNode a i).data.calc_transform
        = (getNode a0 i).data.calc_transform := (hnode i).2
    rw [orderOK] at hord
    rw [Bool.and_eq_true] at hord
    obtain ⟨hpc, hord'⟩ := hord
    -- the transform computed for the head node is its root-path product
    have htrans : tmul (LinkTree.parentWorld a i) (getNode a i).data.calc_transform
        = pathTf a0 i := by
      unfold LinkTree.parentWorld
      rw [hparent_eq]
      cases hp : (getNode a0 i).parent with
      | none =>
        rw [hcalc_eq, pathTf_root a0 i hp]
      | some p =>
        have hpmem : p ∈ done := by
          rw [hp] at hpc
          exact List.mem_of_elem_eq_true hpc
        have hpcache := hdone p hpmem
        have hplt : p < i := by
          have := hwf i (List.mem_cons_self i rest)
          rw [parentLt, hp] at this
          exact of_decide_eq_true this
        simp only [hpcache, hcalc_eq]
        rw [pathTf_parent a0 i p hp hplt]
    -- the arena after the head step
    rw [calcGo_cons]
    set trans := tmul (LinkTree.parentWorld a i) (getNode a i).data.calc_transform
      with htr
    set a2 := setCache a i trans with ha2
    have hco2 : cacheOnlyDiff a2 a0 := by
      refine ⟨by rw [ha2, length_setCache]; exact hlen, ?_⟩
      intro k
      constructor
      · rw [ha2, parent_setCache]
        exact (hnode k).1
      · rw [ha2, calcTransform_setCache]
        exact (hnode k).2
    have hdone2 : ∀ k ∈ i :: done,
        (getNode a2 k).data.world_transform_cache = some (pathTf a0 k) := by
      intro k hk
      by_cases hki : k = i
      · subst hki
        rw [ha2, cache_setCache_self a k trans hbanew, htrans]
      · have hkd : k ∈ done := by
          cases hk with
          | head => exact absurd rfl hki
          | tail _ h => exact h
        rw [ha2, getNode_setCache_ne a i trans k (fun h => hki h.symm)]
        exact hdone k hkd
    have hres := ih a2 (i :: done) hco2 hdone2 hord'
      (fun k hk => hb k (List.mem_cons_of_mem i hk))
      (fun k hk => hwf k (List.mem_cons_of_mem i hk))
    refine ⟨?_, ?_, ?_⟩
    · simp only [List.map_cons]
      rw [htrans, hres.1]
    · exact hres.2.1
    · intro k hk
      apply hres.2.2
      cases hk with
      | inl h => exact Or.inl (List.mem_cons_of_mem i h)
      | inr h =>
        cases h with
        | head => exact Or.inl (List.mem_cons_self i done)
        | tail _ h' => exact Or.inr h'

-- Claim theorems: C4, C5, C6.

/-- C4: for every `LinkTree` whose flattened order places each node strictly
after its parent (with valid, parent-before-child node references),
`calc_link_transforms` returns one transform per flattened node in flattened
order, each equal to the composition of local transforms along the path from
the tree root to that node (the node's `pathTf`), and stores that value in the
node's world-transform cache — a single linear pass. -/
theorem claim_C4_calc_link_transforms (t : LinkTree) (a : Arena)
    (hord : orderOK a [] t.expanded_robot_link_vec = true)
    (hb : ∀ i ∈ t.expanded_robot_link_vec, i < a.length)
    (hwf : ∀ i ∈ t.expanded_robot_link_vec, parentLt a i = true) :
    (t.calc_link_transforms a).1 = t.expanded_robot_link_vec.map (pathTf a)
    ∧ ∀ i ∈ t.expanded_robot_link_vec,
        (getNode ((t.calc_link_transforms a).2) i).data.world_transform_cache
          = some (pathTf a i) := by
  have h := calcGo_spec a t.expanded_robot_link_vec a []
    ⟨rfl, fun i => ⟨rfl, rfl⟩⟩
    (fun i hi => absurd hi (List.not_mem_nil i))
    hord hb hwf
  exact ⟨h.1, fun i hi => h.2.2 i (Or.inr hi)⟩

/-- Witness for C4 at the concrete 8-link chain. -/
theorem claim_C4_witness :
    (orderOK arena8 [] tree8.expanded_robot_link_vec = true
     ∧ (∀ i ∈ tree8.expanded_robot_link_vec, i < arena8.length)
     ∧ ∀ i ∈ tree8.expanded_robot_link_vec, parentLt arena8 i = true)
    ∧ ((tree8.calc_link_transforms arena8).1
         = tree8.expanded_robot_link_vec.map (pathTf arena8)
       ∧ ∀ i ∈ tree8.expanded_robot_link_vec,
           (getNode ((tree8.calc_link_transforms arena8).2) i).data.world_transform_cache
             = some (pathTf arena8 i)) :=
  ⟨⟨by decide, by decide, by decide⟩,
   claim_C4_calc_link_transforms tree8 arena8 (by decide) (by decide) (by decide)⟩

/-- C5: `calc_end_transform` is the left fold of the chain's base transform
with each node's local transform in root-to-end (chain) order, and it neither
reads nor writes any node's shared world-transform cache: its result is
unchanged by a prior `calc_link_transforms` pass of the owning tree, which is
exactly what rewrites those caches. -/
theorem claim_C5_calc_end_transform (c : RefKinematicChain) (a : Arena) :
    c.calc_end_transform a
      = c.joint_with_links.foldl
          (fun tr i => tmul tr (getNode a i).data.calc_transform) c.transform
    ∧ ∀ t : LinkTree,
        c.calc_end_transform ((t.calc_link_transforms a).2)
          = c.calc_end_transform a := by
  refine ⟨rfl, ?_⟩
  intro t
  unfold RefKinematicChain.calc_end_transform LinkTree.calc_link_transforms
  apply List.foldl_ext
  intro acc b hb
  rw [calcGo_calc_transform]

/-- C6: both `set_joint_angles` operations reject a wrongly sized angle vector
with `SizeMisMatch` before any assignment: the error is returned and the arena
is handed back unchanged. -/
theorem claim_C6_size_mismatch (a : Arena) :
    (∀ (t : LinkTree) (v : List Int), v.length ≠ t.dof a →
        t.set_joint_angles a v = (.error .SizeMisMatch, a))
    ∧ ∀ (c : RefKinematicChain) (v : List Int),
        v.length ≠ (c.joint_with_links.filter (fun i => hasJA a i)).length →
        c.set_joint_angles a v = (.error .SizeMisMatch, a) := by
  constructor
  · intro t v h
    unfold LinkTree.set_joint_angles
    rw [if_pos h]
  · intro c v h
    simp only [RefKinematicChain.set_joint_angles]
    rw [if_pos (Ne.symm h)]

/-- Witness for C6: the empty angle vector against the 8-DOF chain tree and a
5-node chain. -/
theorem claim_C6_witness :
    (([] : List Int).length ≠ tree8.dof arena8
     ∧ tree8.set_joint_angles arena8 [] = (.error .SizeMisMatch, arena8))
    ∧ (([] : List Int).length
         ≠ ((RefKinematicChain.new "l4" arena8 4).joint_with_links.filter
              (fun i => hasJA arena8 i)).length
       ∧ (RefKinematicChain.new "l4" arena8 4).set_joint_angles arena8 []
           = (.error .SizeMisMatch, arena8)) :=
  ⟨⟨by decide, (claim_C6_size_mismatch arena8).1 tree8 [] (by decide)⟩,
   ⟨by decide, (claim_C6_size_mismatch arena8).2 (RefKinematicChain.new "l4" arena8 4) [] (by decide)⟩⟩

-- Joint-angle assignment: success predicate and the applied-state function.

theorem set_joint_angle_ok (l : Link) (ang : Int) (l' : Link)
    (h : l.set_joint_angle ang = .ok l') :
    l' = { l with joint_angle := some ang } := by
  unfold Link.set_joint_angle at h
  split at h
  · exact absurd h (by simp)
  · split at h
    · split at h
      · simp only [Except.ok.injEq] at h
        exact h.symm
      · exact absurd h (by simp)
    · simp only [Except.ok.injEq] at h
      exact h.symm

theorem set_joint_angle_error_val (l : Link) (ang : Int) (e : JointError)
    (h : l.set_joint_angle ang = .error e) : e = .OutOfRange := by
  unfold Link.set_joint_angle at h
  split at h
  · simp only [Except.error.injEq] at h
    exact h.symm
  · split at h
    · split at h
      · exact absurd h (by simp)
      · simp only [Except.error.injEq] at h
        exact h.symm
    · exact absurd h (by simp)

theorem set_joint_angle_err (l : Link) (ang : Int)
    (h : isOkE (l.set_joint_angle ang) = false) :
    l.set_joint_angle ang = .error .OutOfRange := by
  cases hE : l.set_joint_angle ang with
  | ok l'' => rw [hE] at h; exact absurd h (by simp [isOkE])
  | error e =>
    have he := set_joint_angle_error_val l ang e hE
    subst he
    rfl

theorem okSet_isSome (a : Arena) (i : Nat) (ang : Int)
    (h : okSet a i ang = true) :
    ((getNode a i).data.joint_angle).isSome = true := by
  cases hja : (getNode a i).data.joint_angle with
  | none =>
    exfalso
    unfold okSet Link.set_joint_angle at h
    rw [hja] at h
    simp [isOkE] at h
  | some x => rfl

theorem data_applyAngle (a : Arena) (j : Nat) (b : Int) (i : Nat) :
    (getNode (applyAngle a j b) i).data =
      if j = i ∧ j < a.length
      then { (getNode a i).data with joint_angle := some b }
      else (getNode a i).data := by
  unfold applyAngle
  rw [getNode_setData]
  by_cases h : j = i ∧ j < a.length
  · obtain ⟨rfl, hl⟩ := h
    simp [hl]
  · simp [h]

theorem length_applyAngle (a : Arena) (j : Nat) (b : Int) :
    (applyAngle a j b).length = a.length := by
  unfold applyAngle
  exact length_setData a j _

theorem getNode_applyAngle_ne (a : Arena) (j : Nat) (b : Int) (i : Nat)
    (h : j ≠ i) : getNode (applyAngle a j b) i = getNode a i := by
  unfold applyAngle
  rw [getNode_setData, if_neg (fun hc => h hc.1)]

theorem okSet_applyAngle (a : Arena) (j : Nat) (b : Int) (i : Nat) (ang : Int)
    (hj : ((getNode a j).data.joint_angle).isSome = true) :
    okSet (applyAngle a j b) i ang = okSet a i ang := by
  unfold okSet
  by_cases hji : j = i
  · subst hji
    rw [data_applyAngle]
    by_cases hl : j < a.length
    · simp only [hl, and_self, if_pos]
      obtain ⟨x, hx⟩ := Option.isSome_iff_exists.mp hj
      unfold Link.set_joint_angle
      rw [hx]
    · simp [hl]
  · rw [getNode_applyAngle_ne a j b i hji]

theorem hasJA_applyAngle_ne (a : Arena) (j : Nat) (b : Int) (i : Nat)
    (h : j ≠ i) : hasJA (applyAngle a j b) i = hasJA a i := by
  unfold hasJA
  rw [getNode_applyAngle_ne a j b i h]

theorem getNode_applyAll_notin :
    ∀ (ps : List (Nat × Int)) (a : Arena) (i : Nat),
      i ∉ ps.map Prod.fst → getNode (applyAll a ps) i = getNode a i := by
  intro ps
  induction ps with
  | nil => intro a i _; rfl
  | cons q rest ih =>
    intro a i hi
    rw [List.map_cons, List.mem_cons] at hi
    push_neg at hi
    show getNode (applyAll (applyAngle a q.1 q.2) rest) i = getNode a i
    rw [ih _ i hi.2, getNode_applyAngle_ne a q.1 q.2 i (fun h => hi.1 h.symm)]

theorem length_applyAll :
    ∀ (ps : List (Nat × Int)) (a : Arena), (applyAll a ps).length = a.length := by
  intro ps
  induction ps with
  | nil => intro a; rfl
  | cons q rest ih =>
    intro a
    show (applyAll (applyAngle a q.1 q.2) rest).length = a.length
    rw [ih, length_applyAngle]

/-- With a duplicate-free id list, applying all pairs stores each pair's angle
at its node. -/
theorem jointAngle_applyAll :
    ∀ (ps : List (Nat × Int)) (a : Arena),
      (ps.map Prod.fst).Nodup → (∀ p ∈ ps, p.1 < a.length) →
      ∀ p ∈ ps, (getNode (applyAll a ps) p.1).data.joint_angle = some p.2 := by
  intro ps
  induction ps with
  | nil => intro a _ _ p hp; exact absurd hp (List.not_mem_nil p)
  | cons q rest ih =>
    intro a hnd hb p hp
    rw [List.map_cons, List.nodup_cons] at hnd
    cases hp with
    | head =>
      show (getNode (applyAll (applyAngle a q.1 q.2) rest) q.1).data.joint_angle
        = some q.2
      rw [getNode_applyAll_notin rest _ q.1 hnd.1, data_applyAngle]
      have hl : q.1 < a.length := hb q (List.mem_cons_self q rest)
      simp [hl]
    | tail _ hp' =>
      show (getNode (applyAll (applyAngle a q.1 q.2) rest) p.1).data.joint_angle
        = some p.2
      apply ih (applyAngle a q.1 q.2) hnd.2
      · intro r hr
        rw [length_applyAngle]
        exact hb r (List.mem_cons_of_mem q hr)
      · exact hp'

/-- If every assignment in the list succeeds on the initial arena, the loop
succeeds and produces exactly the applied state. -/
theorem setAnglesLoop_ok :
    ∀ (ps : List (Nat × Int)) (a : Arena),
      (∀ p ∈ ps, okSet a p.1 p.2 = true) →
      setAnglesLoop a ps = (.ok (), applyAll a ps) := by
  intro ps
  induction ps with
  | nil => intro a _; rfl
  | cons q rest ih =>
    intro a h
    have h0 : okSet a q.1 q.2 = true := h q (List.mem_cons_self q rest)
    have hsome := okSet_isSome a q.1 q.2 h0
    unfold okSet at h0
    cases hset : (getNode a q.1).data.set_joint_angle q.2 with
    | error e => rw [hset] at h0; exact absurd h0 (by simp [isOkE])
    | ok l' =>
      have hl' := set_joint_angle_ok _ _ _ hset
      have hstep : setData a q.1 l' = applyAngle a q.1 q.2 := by
        rw [hl']
        rfl
      show setAnglesLoop a ((q.1, q.2) :: rest) = _
      unfold setAnglesLoop
      rw [hset]
      show setAnglesLoop (setData a q.1 l') rest = _
      rw [hstep]
      rw [ih (applyAngle a q.1 q.2)
        (fun p hp => by
          rw [okSet_applyAngle a q.1 q.2 p.1 p.2 hsome]
          exact h p (List.mem_cons_of_mem q hp))]
      rfl

/-- If the assignments up to some position succeed and that position's
assignment fails (judged on the initial arena — success of the primitive
depends only on jointedness and limits, which assignments never change), the
loop stops there with `OutOfRange`, keeping exactly the earlier assignments. -/
theorem setAnglesLoop_firstFail :
    ∀ (ps1 : List (Nat × Int)) (a : Arena) (i : Nat) (ang : Int)
      (ps2 : List (Nat × Int)),
      (∀ p ∈ ps1, okSet a p.1 p.2 = true) →
      okSet a i ang = false →
      setAnglesLoop a (ps1 ++ (i, ang) :: ps2)
        = (.error .OutOfRange, applyAll a ps1) := by
  intro ps1
  induction ps1 with
  | nil =>
    intro a i ang ps2 _ hf
    unfold okSet at hf
    have herr := set_joint_angle_err _ ang hf
    show setAnglesLoop a ((i, ang) :: ps2) = _
    unfold setAnglesLoop
    rw [herr]
    rfl
  | cons q rest ih =>
    intro a i ang ps2 hok hf
    have h0 : okSet a q.1 q.2 = true := hok q (List.mem_cons_self q rest)
    have hsome := okSet_isSome a q.1 q.2 h0
    unfold okSet at h0
    cases hset : (getNode a q.1).data.set_joint_angle q.2 with
    | error e => rw [hset] at h0; exact absurd h0 (by simp [isOkE])
    | ok l' =>
      have hl' := set_joint_angle_ok _ _ _ hset
      have hstep : setData a q.1 l' = applyAngle a q.1 q.2 := by
        rw [hl']
        rfl
      show setAnglesLoop a ((q.1, q.2) :: (rest ++ (i, ang) :: ps2)) = _
      unfold setAnglesLoop
      rw [hset]
      show setAnglesLoop (setData a q.1 l') (rest ++ (i, ang) :: ps2) = _
      rw [hstep]
      rw [ih (applyAngle a q.1 q.2) i ang ps2
        (fun p hp => by
          rw [okSet_applyAngle a q.1 q.2 p.1 p.2 hsome]
          exact hok p (List.mem_cons_of_mem q hp))
        (by rw [okSet_applyAngle a q.1 q.2 i ang hsome]; exact hf)]
      rfl

theorem applyAll_cons (a : Arena) (p : Nat × Int) (ps : List (Nat × Int)) :
    applyAll a (p :: ps) = applyAll (applyAngle a p.1 p.2) ps := rfl

/-- Core of the set/get round trip: reading all joint angles of a
duplicate-free node list after assigning `v` along its jointed sublist
returns `v`. -/
theorem filterMap_applyAll :
    ∀ (vec : List Nat) (a : Arena) (v : List Int),
      vec.Nodup → (∀ i ∈ vec, i < a.length) →
      (vec.filter (fun i => hasJA a i)).length = v.length →
      (∀ p ∈ (vec.filter (fun i => hasJA a i)).zip v, okSet a p.1 p.2 = true) →
      vec.filterMap
          (fun i => (getNode (applyAll a
            ((vec.filter (fun i => hasJA a i)).zip v)) i).data.joint_angle)
        = v := by
  intro vec
  induction vec with
  | nil =>
    intro a v _ _ hlen _
    cases v with
    | nil => rfl
    | cons x v' => simp at hlen
  | cons i rest ih =>
    intro a v hnd hb hlen hok
    rw [List.nodup_cons] at hnd
    have hbi : i < a.length := hb i (List.mem_cons_self i rest)
    by_cases hja : hasJA a i
    · rw [List.filter_cons, if_pos hja] at hlen hok ⊢
      cases v with
      | nil => simp at hlen
      | cons x v' =>
        simp only [List.length_cons, Nat.succ.injEq] at hlen
        rw [List.zip_cons_cons] at hok ⊢
        have okhead : okSet a i x = true :=
          hok (i, x) (List.mem_cons_self _ _)
        have hsome := okSet_isSome a i x okhead
        have hmapfst : ((rest.filter (fun k => hasJA a k)).zip v').map Prod.fst
            = rest.filter (fun k => hasJA a k) :=
          List.map_fst_zip _ _ (Nat.le_of_eq hlen)
        have hnotin : i ∉ ((rest.filter (fun k => hasJA a k)).zip v').map Prod.fst := by
          rw [hmapfst]
          intro hmem
          exact hnd.1 (List.mem_of_mem_filter hmem)
        rw [applyAll_cons]
        rw [List.filterMap_cons]
        have hhead : (getNode (applyAll (applyAngle a i x)
            ((rest.filter (fun k => hasJA a k)).zip v')) i).data.joint_angle
            = some x := by
          rw [getNode_applyAll_notin _ _ i hnotin, data_applyAngle]
          simp [hbi]
        rw [hhead]
        have hfiltereq : rest.filter (fun k => hasJA (applyAngle a i x) k)
            = rest.filter (fun k => hasJA a k) := by
          apply List.filter_congr
          intro k hk
          exact hasJA_applyAngle_ne a i x k (fun he => hnd.1 (he ▸ hk))
        have htail := ih (applyAngle a i x) v' hnd.2
          (fun k hk => by
            rw [length_applyAngle]
            exact hb k (List.mem_cons_of_mem i hk))
          (by rw [hfiltereq]; exact hlen)
          (fun p hp => by
            rw [hfiltereq] at hp
            rw [okSet_applyAngle a i x p.1 p.2 hsome]
            exact hok p (List.mem_cons_of_mem (i, x) hp))
        rw [hfiltereq] at htail
        rw [htail]
    · rw [List.filter_cons, if_neg hja] at hlen hok ⊢
      have hmapfst : ((rest.filter (fun k => hasJA a k)).zip v).map Prod.fst
          = rest.filter (fun k => hasJA a k) :=
        List.map_fst_zip _ _ (Nat.le_of_eq hlen)
      have hnotin : i ∉ ((rest.filter (fun k => hasJA a k)).zip v).map Prod.fst := by
        rw [hmapfst]
        intro hmem
        exact hnd.1 (List.mem_of_mem_filter hmem)
      rw [List.filterMap_cons]
      have hhead : (getNode (applyAll a
          ((rest.filter (fun k => hasJA a k)).zip v)) i).data.joint_angle
          = none := by
        rw [getNode_applyAll_notin _ _ i hnotin]
        unfold hasJA Link.has_joint_angle at hja
        exact Option.not_isSome_iff_eq_none.mp (by simpa using hja)
      rw [hhead]
      exact ih a v hnd.2 (fun k hk => hb k (List.mem_cons_of_mem i hk)) hlen hok

-- Claim theorems: C7, C8.

/-- C7: with a correctly sized angle vector, both `set_joint_angles`
implementations reduce to the sequential per-pair loop: if every assignment is
valid the whole vector is applied in (flattened, resp. chain) order and the
call succeeds, and if some assignment fails while all earlier ones succeed,
the call aborts there, surfaces the per-joint error, and keeps exactly the
earlier assignments applied (no rollback); with duplicate-free node lists each
assigned node holds its corresponding value afterwards. -/
theorem claim_C7_partial_application (a : Arena) :
    (∀ (t : LinkTree) (v : List Int), v.length = t.dof a →
      ((∀ p ∈ (t.iter_for_joints a).zip v, okSet a p.1 p.2 = true) →
          t.set_joint_angles a v
            = (.ok (), applyAll a ((t.iter_for_joints a).zip v)))
      ∧ ∀ (ps1 : List (Nat × Int)) (i : Nat) (ang : Int) (ps2 : List (Nat × Int)),
          (t.iter_for_joints a).zip v = ps1 ++ (i, ang) :: ps2 →
          (∀ p ∈ ps1, okSet a p.1 p.2 = true) →
          okSet a i ang = false →
          t.set_joint_angles a v = (.error .OutOfRange, applyAll a ps1))
    ∧ (∀ (c : RefKinematicChain) (v : List Int),
        v.length = (c.joint_with_links.filter (fun i => hasJA a i)).length →
        ((∀ p ∈ (c.joint_with_links.filter (fun i => hasJA a i)).zip v,
            okSet a p.1 p.2 = true) →
            c.set_joint_angles a v
              = (.ok (), applyAll a
                  ((c.joint_with_links.filter (fun i => hasJA a i)).zip v)))
        ∧ ∀ (ps1 : List (Nat × Int)) (i : Nat) (ang : Int) (ps2 : List (Nat × Int)),
            (c.joint_with_links.filter (fun i => hasJA a i)).zip v
              = ps1 ++ (i, ang) :: ps2 →
            (∀ p ∈ ps1, okSet a p.1 p.2 = true) →
            okSet a i ang = false →
            c.set_joint_angles a v = (.error .OutOfRange, applyAll a ps1))
    ∧ ∀ (ps : List (Nat × Int)),
        (ps.map Prod.fst).Nodup → (∀ p ∈ ps, p.1 < a.length) →
        ∀ p ∈ ps, (getNode (applyAll a ps) p.1).data.joint_angle = some p.2 := by
  refine ⟨?_, ?_, ?_⟩
  · intro t v hlen
    have hguard : t.set_joint_angles a v
        = setAnglesLoop a ((t.iter_for_joints a).zip v) := by
      unfold LinkTree.set_joint_angles
      rw [if_neg (by rw [hlen]; exact fun h => h rfl)]
    constructor
    · intro hok
      rw [hguard]
      exact setAnglesLoop_ok _ a hok
    · intro ps1 i ang ps2 hsplit hok hf
      rw [hguard, hsplit]
      exact setAnglesLoop_firstFail ps1 a i ang ps2 hok hf
  · intro c v hlen
    have hguard : c.set_joint_angles a v
        = setAnglesLoop a
            ((c.joint_with_links.filter (fun i => hasJA a i)).zip v) := by
      simp only [RefKinematicChain.set_joint_angles]
      rw [if_neg (by rw [hlen]; exact fun h => h rfl)]
    constructor
    · intro hok
      rw [hguard]
      exact setAnglesLoop_ok _ a hok
    · intro ps1 i ang ps2 hsplit hok hf
      rw [hguard, hsplit]
      exact setAnglesLoop_firstFail ps1 a i ang ps2 hok hf
  · exact fun ps h1 h2 => jointAngle_applyAll ps a h1 h2

/-- Witness for C7: on the two-joint tree with limits on the second joint,
`set_joint_angles [5, 99]` applies 5 to joint 0, then aborts with the
per-joint error at joint 1, leaving 5 applied. -/
theorem claim_C7_witness :
    (([5, 99] : List Int).length = treeLim.dof arenaLim
     ∧ (treeLim.iter_for_joints arenaLim).zip [5, 99]
         = [((0 : Nat), (5 : Int))] ++ ((1 : Nat), (99 : Int)) :: []
     ∧ (∀ p ∈ [((0 : Nat), (5 : Int))], okSet arenaLim p.1 p.2 = true)
     ∧ okSet arenaLim 1 99 = false)
    ∧ treeLim.set_joint_angles arenaLim [5, 99]
        = (.error .OutOfRange, applyAll arenaLim [(0, 5)]) :=
  ⟨⟨by decide, by decide, by decide, by decide⟩,
   ((claim_C7_partial_application arenaLim).1 treeLim [5, 99] (by decide)).2
     [(0, 5)] 1 99 [] (by decide) (by decide) (by decide)⟩

/-- C8: on a valid tree (duplicate-free flattened order, in-bounds nodes), for
every angle vector of length `dof()` whose assignments all pass validation,
`set_joint_angles v` succeeds and a following `get_joint_angles` returns `v`
itself: both walk the jointed nodes in the same flattened order. -/
theorem claim_C8_roundtrip (t : LinkTree) (a : Arena) (v : List Int)
    (hnd : t.expanded_robot_link_vec.Nodup)
    (hb : ∀ i ∈ t.expanded_robot_link_vec, i < a.length)
    (hlen : v.length = t.dof a)
    (hok : ∀ p ∈ (t.iter_for_joints a).zip v, okSet a p.1 p.2 = true) :
    t.set_joint_angles a v
      = (.ok (), applyAll a ((t.iter_for_joints a).zip v))
    ∧ t.get_joint_angles (applyAll a ((t.iter_for_joints a).zip v)) = v := by
  constructor
  · have hguard : t.set_joint_angles a v
        = setAnglesLoop a ((t.iter_for_joints a).zip v) := by
      unfold LinkTree.set_joint_angles
      rw [if_neg (by rw [hlen]; exact fun h => h rfl)]
    rw [hguard]
    exact setAnglesLoop_ok _ a hok
  · exact filterMap_applyAll t.expanded_robot_link_vec a v hnd hb hlen.symm hok

/-- Witness for C8 at the 8-link chain with angles 1..8. -/
theorem claim_C8_witness :
    (tree8.expanded_robot_link_vec.Nodup
     ∧ (∀ i ∈ tree8.expanded_robot_link_vec, i < arena8.length)
     ∧ ([1, 2, 3, 4, 5, 6, 7, 8] : List Int).length = tree8.dof arena8
     ∧ ∀ p ∈ (tree8.iter_for_joints arena8).zip [1, 2, 3, 4, 5, 6, 7, 8],
         okSet arena8 p.1 p.2 = true)
    ∧ (tree8.set_joint_angles arena8 [1, 2, 3, 4, 5, 6, 7, 8]
        = (.ok (), applyAll arena8
            ((tree8.iter_for_joints arena8).zip [1, 2, 3, 4, 5, 6, 7, 8]))
       ∧ tree8.get_joint_angles (applyAll arena8
            ((tree8.iter_for_joints arena8).zip [1, 2, 3, 4, 5, 6, 7, 8]))
          = [1, 2, 3, 4, 5, 6, 7, 8]) :=
  ⟨⟨by decide, by decide, by decide, by decide⟩,
   claim_C8_roundtrip tree8 arena8 [1, 2, 3, 4, 5, 6, 7, 8]
     (by decide) (by decide) (by decide) (by decide)⟩

-- Chain-extraction lemmas.

theorem ancestorIds_head (a : Arena) (i : Nat) :
    (ancestorIds a i).head? = some i := by
  rw [ancestorIds_eq]
  cases hp : (getNode a i).parent with
  | none => rfl
  | some j =>
    by_cases hj : j < i
    · simp [hj]
    · simp [hj]

/-- Structure of the extraction loop's output: emitted names avoid the carried
hash and are pairwise distinct, and every emitted chain was constructed at the
computed root of the FIRST leaf whose computed-root name matches it (dedup by
constructed name, first leaf in flattened order wins), and passed the 6-joint
filter. -/
theorem ckcLoop_spec (a : Arena) (dl : Nat) :
    ∀ (ls : List Nat) (hash : List String) (out : List RefKinematicChain),
      ckcLoop a dl hash ls = some out →
      (out.map RefKinematicChain.name).Nodup
      ∧ ∀ c ∈ out, c.name ∉ hash ∧
          ∃ l r, ls.find? (fun x => crName a dl x == some c.name) = some l
            ∧ computedRoot a dl l = some r
            ∧ c = RefKinematicChain.new ((getNode a r).data.name) a r
            ∧ 6 ≤ (c.get_joint_angles a).length := by
  intro ls
  induction ls with
  | nil =>
    intro hash out h
    simp only [ckcLoop, Option.some.injEq] at h
    subst h
    exact ⟨List.nodup_nil, fun c hc => absurd hc (List.not_mem_nil c)⟩
  | cons leaf rest ih =>
    intro hash out h
    simp only [ckcLoop] at h
    cases hcr : computedRoot a dl leaf with
    | none => rw [hcr] at h; exact absurd h (by simp)
    | some root =>
      rw [hcr] at h
      simp only at h
      have hcrn : crName a dl leaf = some ((getNode a root).data.name) := by
        unfold crName
        rw [hcr]
        rfl
      by_cases hmem : (getNode a root).data.name ∈ hash
      · rw [if_pos hmem] at h
        obtain ⟨hnd, hprop⟩ := ih hash out h
        refine ⟨hnd, fun c hc => ?_⟩
        obtain ⟨hnotin, l, r, hfind, hcr', hceq, hjts⟩ := hprop c hc
        have hne : c.name ≠ (getNode a root).data.name :=
          fun he => hnotin (he ▸ hmem)
        refine ⟨hnotin, l, r, ?_, hcr', hceq, hjts⟩
        rw [List.find?_cons]
        have hfalse : (crName a dl leaf == some c.name) = false := by
          rw [hcrn]
          exact beq_eq_false_iff_ne.mpr (by simp [hne.symm])
        rw [hfalse]
        exact hfind
      · rw [if_neg hmem] at h
        cases hrec : ckcLoop a dl ((getNode a root).data.name :: hash) rest with
        | none => rw [hrec] at h; exact absurd h (by simp)
        | some out' =>
          rw [hrec] at h
          simp only [Option.some.injEq] at h
          obtain ⟨hnd', hprop'⟩ := ih _ out' hrec
          have hsep : ∀ c ∈ out',
              c.name ≠ (getNode a root).data.name ∧ c.name ∉ hash := by
            intro c hc
            have := (hprop' c hc).1
            rw [List.mem_cons] at this
            push_neg at this
            exact this
          have htailprop : ∀ c ∈ out', c.name ∉ hash ∧
              ∃ l r, (leaf :: rest).find?
                  (fun x => crName a dl x == some c.name) = some l
                ∧ computedRoot a dl l = some r
                ∧ c = RefKinematicChain.new ((getNode a r).data.name) a r
                ∧ 6 ≤ (c.get_joint_angles a).length := by
            intro c hc
            obtain ⟨_, l, r, hfind, hcr', hceq, hjts⟩ := hprop' c hc
            refine ⟨(hsep c hc).2, l, r, ?_, hcr', hceq, hjts⟩
            rw [List.find?_cons]
            have hfalse : (crName a dl leaf == some c.name) = false := by
              rw [hcrn]
              exact beq_eq_false_iff_ne.mpr (by simp [((hsep c hc).1).symm])
            rw [hfalse]
            exact hfind
          by_cases hlen6 : 6 ≤ ((RefKinematicChain.new
              ((getNode a root).data.name) a root).get_joint_angles a).length
          · rw [if_pos hlen6] at h
            subst h
            constructor
            · rw [List.map_cons, List.nodup_cons]
              refine ⟨?_, hnd'⟩
              intro hmem'
              obtain ⟨c, hc, hcn⟩ := List.mem_map.mp hmem'
              exact (hsep c hc).1 hcn
            · intro c hc
              cases hc with
              | head =>
                refine ⟨hmem, leaf, root, ?_, hcr, rfl, hlen6⟩
                rw [List.find?_cons]
                have htrue : (crName a dl leaf
                    == some (RefKinematicChain.new
                      ((getNode a root).data.name) a root).name) = true := by
                  rw [hcrn]
                  exact beq_iff_eq.mpr rfl
                rw [htrue]
              | tail _ hc' => exact htailprop c hc'
          · rw [if_neg hlen6] at h
            subst h
            exact ⟨hnd', htailprop⟩

theorem jointedCount_eq (a : Arena) (i : Nat) :
    jointedCount a i = (if hasJA a i then 1 else 0) + tailJC a i := by
  unfold tailJC jointedCount
  rw [ancestorIds_eq a i]
  cases hp : (getNode a i).parent with
  | none =>
    simp only
    by_cases hja : hasJA a i
    · simp [List.filter_cons, hja]
    · simp [List.filter_cons, hja]
  | some p =>
    simp only
    by_cases hpi : p < i
    · simp only [if_pos hpi]
      by_cases hja : hasJA a i
      · simp only [List.filter_cons, hja, if_pos, List.length_cons]
        omega
      · simp only [List.filter_cons, hja, Bool.false_eq_true, if_false]
        omega
    · simp only [if_neg hpi]
      by_cases hja : hasJA a i
      · simp [List.filter_cons, hja]
      · simp [List.filter_cons, hja]

theorem tailJC_none (a : Arena) (i : Nat)
    (hp : (getNode a i).parent = none) : tailJC a i = 0 := by
  unfold tailJC
  rw [hp]

theorem tailJC_parent (a : Arena) (i p : Nat)
    (hp : (getNode a i).parent = some p) (hpi : p < i) :
    tailJC a i = jointedCount a p := by
  unfold tailJC
  rw [hp]
  simp [hpi]

theorem tailJC_bad (a : Arena) (i p : Nat)
    (hp : (getNode a i).parent = some p) (hpi : ¬p < i) : tailJC a i = 0 := by
  unfold tailJC
  rw [hp]
  simp [hpi]

theorem truncateRoot_zero (a : Arena) (i : Nat) :
    truncateRoot a i 0 = some i := by
  simp [truncateRoot, truncGo]

theorem truncateRoot_succ (a : Arena) (i p n : Nat)
    (hp : (getNode a i).parent = some p) (hpi : p < i) :
    truncateRoot a i (n + 1)
      = (if hasJA a p then truncateRoot a p n else truncateRoot a p (n + 1)) := by
  rw [truncateRoot_eq]
  simp [hp, hpi]

/-- The truncation walk succeeds whenever its counter does not exceed the
number of jointed strict ancestors of the start node. -/
theorem truncate_some (a : Arena) :
    ∀ i n : Nat, n ≤ tailJC a i → ∃ r, truncateRoot a i n = some r := by
  intro i
  induction i using Nat.strong_induction_on with
  | _ i ih =>
    intro n hn
    cases n with
    | zero => exact ⟨i, truncateRoot_zero a i⟩
    | succ n =>
      cases hp : (getNode a i).parent with
      | none =>
        rw [tailJC_none a i hp] at hn
        exact absurd hn (by omega)
      | some p =>
        by_cases hpi : p < i
        · rw [tailJC_parent a i p hp hpi] at hn
          rw [truncateRoot_succ a i p n hp hpi]
          by_cases hja : hasJA a p
          · rw [if_pos hja]
            apply ih p hpi
            have hjc : jointedCount a p = 1 + tailJC a p := by
              simp [jointedCount_eq a p, hja]
            omega
          · rw [if_neg hja]
            apply ih p hpi
            have hjc : jointedCount a p = tailJC a p := by
              simp [jointedCount_eq a p, hja]
            omega
        · rw [tailJC_bad a i p hp hpi] at hn
          exact absurd hn (by omega)

/-- With any positive DOF limit, the computed root of every leaf exists: the
counter `dof - dof_limit` never exceeds the jointed strict ancestors. -/
theorem computedRoot_some (a : Arena) (dl : Nat) (hdl : 1 ≤ dl) (leaf : Nat) :
    ∃ r, computedRoot a dl leaf = some r := by
  unfold computedRoot
  by_cases h : jointedCount a leaf > dl
  · rw [if_pos h]
    apply truncate_some
    by_cases hja : hasJA a leaf
    · have hjc : jointedCount a leaf = 1 + tailJC a leaf := by
        simp [jointedCount_eq a leaf, hja]
      omega
    · have hjc : jointedCount a leaf = tailJC a leaf := by
        simp [jointedCount_eq a leaf, hja]
      omega
  · exact ⟨leaf, if_neg h⟩

/-- The extraction loop panics only through a leaf whose computed root does
not exist. -/
theorem ckcLoop_total (a : Arena) (dl : Nat) :
    ∀ (ls : List Nat) (hash : List String),
      (∀ leaf ∈ ls, ∃ r, computedRoot a dl leaf = some r) →
      ∃ out, ckcLoop a dl hash ls = some out := by
  intro ls
  induction ls with
  | nil => intro hash _; exact ⟨[], rfl⟩
  | cons leaf rest ih =>
    intro hash hall
    obtain ⟨root, hroot⟩ := hall leaf (List.mem_cons_self leaf rest)
    by_cases hmem : (getNode a root).data.name ∈ hash
    · obtain ⟨out, hout⟩ :=
        ih hash (fun l hl => hall l (List.mem_cons_of_mem leaf hl))
      exact ⟨out, by simp [ckcLoop, hroot, hmem, hout]⟩
    · obtain ⟨out, hout⟩ :=
        ih ((getNode a root).data.name :: hash)
          (fun l hl => hall l (List.mem_cons_of_mem leaf hl))
      refine ⟨if 6 ≤ ((RefKinematicChain.new ((getNode a root).data.name)
          a root).get_joint_angles a).length
        then RefKinematicChain.new ((getNode a root).data.name) a root :: out
        else out, ?_⟩
      simp [ckcLoop, hroot, hmem, hout]

-- Claim theorems: C1, C2, C3, C9, C10.

/-- C1 counterexample: on a straight chain of 10 jointed links with
`dof_limit = 7`, the truncation walk computes root 6 for leaf 9, and the
single emitted chain's node list is `[0..6]`: it starts at the tree root 0
(not the computed root 6) and ends at the computed root 6 (not the leaf 9),
contradicting the claim that the chain runs from the computed root down to
the leaf. -/
theorem claim_C1_counterexample :
    leavesOf tree10 arena10 = [9]
    ∧ computedRoot arena10 7 9 = some 6
    ∧ create_kinematic_chains_with_dof_limit tree10 arena10 7
        = some [RefKinematicChain.new "l6" arena10 6]
    ∧ (RefKinematicChain.new "l6" arena10 6).joint_with_links
        = [0, 1, 2, 3, 4, 5, 6]
    ∧ ([0, 1, 2, 3, 4, 5, 6] : List Nat).head? ≠ some 6
    ∧ ([0, 1, 2, 3, 4, 5, 6] : List Nat).getLast? ≠ some 9 := by
  refine ⟨by decide, by decide, by decide, by decide, by decide, by decide⟩

/-- C1 (amended): every chain emitted by `create_kinematic_chains_with_dof_limit`
is built from the computed root of a processed leaf as the chain END: its node
list is the reversed ancestor walk of the computed root, so it runs from the
top of the tree down to the computed root, whose index is its last entry (it
reaches the leaf only when no truncation occurred, the computed root then
being the leaf itself). -/
theorem claim_C1_amended_chain_span (t : LinkTree) (a : Arena) (dl : Nat)
    (out : List RefKinematicChain)
    (h : create_kinematic_chains_with_dof_limit t a dl = some out) :
    ∀ c ∈ out, ∃ l r, l ∈ leavesOf t a
      ∧ computedRoot a dl l = some r
      ∧ c.joint_with_links = (ancestorIds a r).reverse
      ∧ c.joint_with_links.getLast? = some r := by
  intro c hc
  obtain ⟨_, l, r, hfind, hcr, hceq, _⟩ := (ckcLoop_spec a dl _ _ out h).2 c hc
  refine ⟨l, r, List.mem_of_find?_eq_some hfind, hcr, ?_, ?_⟩
  · rw [hceq]
    rfl
  · rw [hceq]
    show (ancestorIds a r).reverse.getLast? = some r
    rw [List.getLast?_reverse, ancestorIds_head]

/-- Witness for the amended C1 at the 10-link chain with `dof_limit = 7`. -/
theorem claim_C1_amended_witness :
    create_kinematic_chains_with_dof_limit tree10 arena10 7
        = some [RefKinematicChain.new "l6" arena10 6]
    ∧ ∀ c ∈ [RefKinematicChain.new "l6" arena10 6],
        ∃ l r, l ∈ leavesOf tree10 arena10
          ∧ computedRoot arena10 7 l = some r
          ∧ c.joint_with_links = (ancestorIds arena10 r).reverse
          ∧ c.joint_with_links.getLast? = some r :=
  ⟨by decide,
   claim_C1_amended_chain_span tree10 arena10 7
     [RefKinematicChain.new "l6" arena10 6] (by decide)⟩

/-- C2 counterexample: the 8-link straight chain with `dof_limit = 5` has one
leaf (node 7) with 8 jointed ancestors, yet the function returns NO chain at
all — the truncated chain has 5 joints and is discarded by the hard-coded
6-joint minimum — contradicting the claim that a 5-joint chain is returned. -/
theorem claim_C2_counterexample :
    leavesOf tree8 arena8 = [7]
    ∧ jointedCount arena8 7 = 8
    ∧ create_kinematic_chains_with_dof_limit tree8 arena8 5 = some [] := by
  refine ⟨by decide, by decide, by decide⟩

/-- C2 (amended): with `dof_limit = 5` on the straight chain of 8 jointed
links, the truncation walk does compute root 4 — the 4th-from-leaf jointed
ancestor — decrementing only at jointed ancestors (on the 9-link variant with
a fixed joint at node 5 the walk also lands at node 4, skipping the fixed node
for free), and the constructed chain spans the TREE ROOT to that computed root
with exactly 5 jointed links; but having fewer than 6 joints it is discarded,
so the function returns no chain. -/
theorem claim_C2_amended_truncation :
    truncateRoot arena8 7 3 = some 4
    ∧ computedRoot arena8 5 7 = some 4
    ∧ (RefKinematicChain.new "l4" arena8 4).joint_with_links = [0, 1, 2, 3, 4]
    ∧ ((RefKinematicChain.new "l4" arena8 4).get_joint_angles arena8).length = 5
    ∧ create_kinematic_chains_with_dof_limit tree8 arena8 5 = some []
    ∧ hasJA arenaFx 5 = false
    ∧ jointedCount arenaFx 8 = 8
    ∧ truncateRoot arenaFx 8 3 = some 4 := by
  refine ⟨by decide, by decide, by decide, by decide, by decide, by decide,
    by decide, by decide⟩

/-- C3 counterexample: in `treeDup` the two leaves 1 and 7 both compute roots
named `"X"` (no truncation, unlimited limit); leaf 7's chain has 7 joints and
would pass the 6-joint filter, but the output is EMPTY: leaf 1's 2-joint chain
was constructed first, discarded by the filter, and its name nevertheless
recorded in the dedup set, so leaf 7 is skipped — zero chains are emitted,
not "exactly one". -/
theorem claim_C3_counterexample :
    leavesOf treeDup arenaDup = [1, 7]
    ∧ crName arenaDup (2 ^ 64 - 1) 1 = some "X"
    ∧ crName arenaDup (2 ^ 64 - 1) 7 = some "X"
    ∧ ((RefKinematicChain.new "X" arenaDup 7).get_joint_angles arenaDup).length = 7
    ∧ create_kinematic_chains_with_dof_limit treeDup arenaDup (2 ^ 64 - 1)
        = some [] := by
  refine ⟨by decide, by decide, by decide, by decide, by decide⟩

/-- C3 (amended): the dedup set records the root name of every CONSTRUCTED
chain, emitted or not; hence emitted chain names are pairwise distinct, and
each emitted chain comes from the FIRST leaf (in flattened order) whose
computed-root name matches it — for several leaves sharing a computed-root
name, at most one chain is emitted, namely the first leaf's, and only if that
first chain has at least 6 joints. -/
theorem claim_C3_amended_dedup (t : LinkTree) (a : Arena) (dl : Nat)
    (out : List RefKinematicChain)
    (h : create_kinematic_chains_with_dof_limit t a dl = some out) :
    (out.map RefKinematicChain.name).Nodup
    ∧ ∀ c ∈ out, ∃ l r,
        (leavesOf t a).find? (fun x => crName a dl x == some c.name) = some l
        ∧ computedRoot a dl l = some r
        ∧ c = RefKinematicChain.new ((getNode a r).data.name) a r
        ∧ 6 ≤ (c.get_joint_angles a).length := by
  have hs := ckcLoop_spec a dl (leavesOf t a) [] out h
  exact ⟨hs.1, fun c hc => (hs.2 c hc).2⟩

/-- Witness for the amended C3 at the 10-link chain. -/
theorem claim_C3_amended_witness :
    create_kinematic_chains_with_dof_limit tree10 arena10 7
        = some [RefKinematicChain.new "l6" arena10 6]
    ∧ (([RefKinematicChain.new "l6" arena10 6].map
          RefKinematicChain.name).Nodup
       ∧ ∀ c ∈ [RefKinematicChain.new "l6" arena10 6], ∃ l r,
           (leavesOf tree10 arena10).find?
               (fun x => crName arena10 7 x == some c.name) = some l
           ∧ computedRoot arena10 7 l = some r
           ∧ c = RefKinematicChain.new ((getNode arena10 r).data.name) arena10 r
           ∧ 6 ≤ (c.get_joint_angles arena10).length) :=
  ⟨by decide,
   claim_C3_amended_dedup tree10 arena10 7
     [RefKinematicChain.new "l6" arena10 6] (by decide)⟩

/-- C9 counterexample: a single jointed link (root = leaf) with
`dof_limit = 0` satisfies the claim's precondition vacuously (it has at least
0 jointed ancestors before a parentless node), yet `dof = 1 > 0` starts the
truncation walk with counter 1 at a parentless node: the parent assertion
fails (embedded as `none`) and the whole extraction panics. -/
theorem claim_C9_counterexample :
    jointedCount arena1 0 = 1
    ∧ truncateRoot arena1 0 1 = none
    ∧ create_kinematic_chains_with_dof_limit tree1 arena1 0 = none := by
  refine ⟨by decide, by decide, by decide⟩

/-- C9 (amended): the truncation-walk assertion can only fail when
`dof_limit = 0` and a leaf is itself jointed; for every `dof_limit ≥ 1` the
walk's counter `dof - dof_limit` never exceeds the leaf's jointed strict
ancestors, so the walk always terminates with the counter exhausted before
reaching a parentless node and the extraction never panics. -/
theorem claim_C9_amended_no_panic (t : LinkTree) (a : Arena) (dl : Nat)
    (hdl : 1 ≤ dl) :
    ∃ out, create_kinematic_chains_with_dof_limit t a dl = some out := by
  unfold create_kinematic_chains_with_dof_limit
  exact ckcLoop_total a dl (leavesOf t a) []
    (fun leaf _ => computedRoot_some a dl hdl leaf)

/-- Witness for the amended C9: with `dof_limit = 1` even the single-jointed-
link tree extracts without panicking. -/
theorem claim_C9_amended_witness :
    (1 : Nat) ≤ 1
    ∧ ∃ out, create_kinematic_chains_with_dof_limit tree1 arena1 1 = some out :=
  ⟨by decide, claim_C9_amended_no_panic tree1 arena1 1 (by decide)⟩

/-- C10: every chain returned by the extraction carries as its `name` the name
of the link stored at the computed chain root of one of the processed leaves,
and the emitted names are exactly deduplicated root-link names (pairwise
distinct). -/
theorem claim_C10_chain_names (t : LinkTree) (a : Arena) (dl : Nat)
    (out : List RefKinematicChain)
    (h : create_kinematic_chains_with_dof_limit t a dl = some out) :
    (∀ c ∈ out, ∃ leaf r, leaf ∈ leavesOf t a
        ∧ computedRoot a dl leaf = some r
        ∧ c.name = (getNode a r).data.name)
    ∧ (out.map RefKinematicChain.name).Nodup := by
  have hs := ckcLoop_spec a dl (leavesOf t a) [] out h
  refine ⟨?_, hs.1⟩
  intro c hc
  obtain ⟨_, l, r, hfind, hcr, hceq, _⟩ := hs.2 c hc
  exact ⟨l, r, List.mem_of_find?_eq_some hfind, hcr, by rw [hceq]; rfl⟩

/-- Witness for C10 at the 10-link chain with `dof_limit = 7`. -/
theorem claim_C10_witness :
    create_kinematic_chains_with_dof_limit tree10 arena10 7
        = some [RefKinematicChain.new "l6" arena10 6]
    ∧ ((∀ c ∈ [RefKinematicChain.new "l6" arena10 6],
          ∃ leaf r, leaf ∈ leavesOf tree10 arena10
            ∧ computedRoot arena10 7 leaf = some r
            ∧ c.name = (getNode arena10 r).data.name)
       ∧ (([RefKinematicChain.new "l6" arena10 6].map
            RefKinematicChain.name).Nodup)) :=
  ⟨by decide,
   claim_C10_chain_names tree10 arena10 7
     [RefKinematicChain.new "l6" arena10 6] (by decide)⟩

end RcTreeLinks
